import Mathlib

/-!
Verification development for a Cloudflare Worker sitemap crawler.

The embedding follows the TypeScript sources:
* `src/crawler.ts` — `allowedByRobots`, `pLimit`, `crawlBatch`;
* `src/sitemap.ts` — `SitemapSource.fetchText`, `UrlsetParser.extractUrls`,
  `IndexParser.extractUrls`, `SitemapParserFactory.from`;
* `src/index.ts` — `InlineEnqueuer.enqueueMany`, `QueueEnqueuer.enqueueMany`.

JavaScript strings are modelled as `List Char` so that every string
operation is an executable, kernel-reducible function; the JS string
methods used by the sources (`trim`, `toLowerCase`, `startsWith`,
`split`, `indexOf`/`slice`) are re-implemented below with JS semantics.
Network I/O is modelled by explicit environments (functions from URL to
response), and the cooperative event-loop scheduling of `pLimit` is
modelled by a small-step transition relation.
-/

/-- JavaScript strings, modelled as lists of characters. -/
abbrev Str : Type := List Char

deriving instance DecidableEq for Except

/-- ASCII whitespace recognised by JS `String.prototype.trim`
(the sources only ever trim ASCII robots.txt / header text). -/
def jsWhitespace (c : Char) : Bool :=
  c = ' ' || c = '\t' || c = '\n' || c = '\r' || c = '\x0b' || c = '\x0c'

/-- JS `s.trim()`: strip whitespace from both ends. -/
def jsTrim (s : Str) : Str :=
  ((s.dropWhile jsWhitespace).reverse.dropWhile jsWhitespace).reverse

/-- JS `s.toLowerCase()` (ASCII case folding, as used on directive keys,
user-agent values and URL paths in the sources). -/
def jsToLower (s : Str) : Str := s.map Char.toLower

/-- JS `s.startsWith(p)`. -/
def jsStartsWith (s p : Str) : Bool := p.isPrefixOf s

/-- JS `s.endsWith(p)` (used to model the regex `/\.gz$/i`). -/
def jsEndsWith (s p : Str) : Bool := p.isSuffixOf s

/-- JS `text.split(/\r?\n/)`: split at every `\n`, consuming one
immediately preceding `\r`. The accumulator holds the current line
reversed. -/
def splitLinesAux : Str → Str → List Str
  | [], acc => [acc.reverse]
  | '\r' :: '\n' :: rest, acc => acc.reverse :: splitLinesAux rest []
  | '\n' :: rest, acc => acc.reverse :: splitLinesAux rest []
  | c :: rest, acc => splitLinesAux rest (c :: acc)

/-- JS `text.split(/\r?\n/)` from `allowedByRobots` in `src/crawler.ts`. -/
def jsLines (text : Str) : List Str := splitLinesAux text []

/-- Models `line.indexOf(":")` followed by `line.slice(0, idx)` and
`line.slice(idx + 1)`: `none` when the line has no colon, otherwise the
text before and after the first colon. -/
def splitFirstColon : Str → Option (Str × Str)
  | [] => none
  | ':' :: rest => some ([], rest)
  | c :: rest =>
    match splitFirstColon rest with
    | none => none
    | some (a, b) => some (c :: a, b)

/-- The directive-collecting loop of `allowedByRobots`
(`src/crawler.ts` lines 15-30), over already-trimmed lines. `inStar`
is the mutable flag of the source: whether the most recent `user-agent`
line applies to the checking agent (wildcard `*` or case-insensitive
match). Collects the values of `disallow` directives seen while the
flag is set, skipping empty values. -/
def collectDisallows (userAgent : Str) : List Str → Bool → List Str
  | [], _ => []
  | line :: rest, inStar =>
    if line.isEmpty || jsStartsWith line "#".data then
      collectDisallows userAgent rest inStar
    else
      match splitFirstColon line with
      | none => collectDisallows userAgent rest inStar
      | some (rawKey, rawVal) =>
        let k := jsToLower (jsTrim rawKey)
        let v := jsTrim rawVal
        if k = "user-agent".data then
          collectDisallows userAgent rest
            ((v == "*".data) || (jsToLower v == jsToLower userAgent))
        else if inStar && (k == "disallow".data) then
          if v.isEmpty then collectDisallows userAgent rest inStar
          else v :: collectDisallows userAgent rest inStar
        else collectDisallows userAgent rest inStar

/-- Final verdict of `allowedByRobots` given robots.txt text:
`!disallows.some((rule) => rule !== "/" && u.pathname.startsWith(rule))`
(`src/crawler.ts` line 31), after splitting into lines and trimming. -/
def robotsVerdict (text pathname userAgent : Str) : Bool :=
  let lines := (jsLines text).map jsTrim
  let disallows := collectDisallows userAgent lines false
  !(disallows.any fun rule => (rule != "/".data) && jsStartsWith pathname rule)

/-- `allowedByRobots(url, userAgent)` from `src/crawler.ts`.
`urlParts` models `new URL(url)`: `none` when the constructor throws
(caught, yielding `true`), otherwise `(origin, pathname)`.
`fetchDoc` models `fetch` of `origin + "/robots.txt"`: `none` when the
fetch throws (caught, yielding `true`), otherwise `(res.ok, text)`.
A non-ok response yields `true` ("be permissive if robots is missing"). -/
def allowedByRobots (urlParts : Option (Str × Str))
    (fetchDoc : Str → Option (Bool × Str)) (userAgent : Str) : Bool :=
  match urlParts with
  | none => true
  | some (origin, pathname) =>
    match fetchDoc (origin ++ "/robots.txt".data) with
    | none => true
    | some (ok, text) =>
      if !ok then true
      else robotsVerdict text pathname userAgent

/-- The per-URL outcome record of `src/types.ts`. -/
structure CrawlResult where
  ok : Bool
  status : Nat
  url : Str
deriving DecidableEq

/-- One run of the task body of `crawlBatch` (`src/crawler.ts` lines
55-65) for a single URL. `allowed` is the robots verdict; `fetchPage`
models `fetch(url)`: `none` when it throws (caught, yielding
`{ok: false, status: 0}`), otherwise `(res.ok, res.status)`.
Returns the single `CrawlResult` pushed to `out`, paired with whether
the page fetch was issued (disallowed URLs return before fetching). -/
def crawlTaskRun (allowed : Bool) (fetchPage : Option (Bool × Nat))
    (url : Str) : CrawlResult × Bool :=
  if !allowed then (⟨true, 999, url⟩, false)
  else
    match fetchPage with
    | none => (⟨false, 0, url⟩, true)
    | some (ok, status) => (⟨ok, status, url⟩, true)

/-- The `CrawlResult` produced by the `crawlBatch` task body for one URL. -/
def crawlTask (allowed : Bool) (fetchPage : Option (Bool × Nat))
    (url : Str) : CrawlResult :=
  (crawlTaskRun allowed fetchPage url).1

/-- An HTTP response as seen by `SitemapSource.fetchText`: `ok`,
`status`, and an optional body payload (`res.body` is `null` when the
response carries no body). The payload type is abstract; decoding and
gzip decompression are abstract functions over it. -/
structure HttpResp (β : Type) where
  ok : Bool
  status : Nat
  body : Option β

/-- The regex test `/\.gz$/i.test(new URL(url).pathname)` from
`SitemapSource.fetchText` (`src/sitemap.ts` line 17): the pathname ends
in `.gz`, case-insensitively. -/
def isGzPath (pathname : Str) : Bool := jsEndsWith (jsToLower pathname) ".gz".data

/-- `SitemapSource.fetchText` (`src/sitemap.ts` lines 10-24).
`gunzipText b` models piping the body through
`DecompressionStream("gzip")` and decoding the result as text;
`bodyText b` models `res.text()`. A non-2xx response throws an error
carrying the URL and status; a `.gz` path with no body yields the empty
string; otherwise the body is decoded, decompressing first exactly on
`.gz` paths. -/
def fetchTextM {β : Type} (gunzipText bodyText : β → Str) (url pathname : Str)
    (resp : HttpResp β) : Except (Str × Nat) Str :=
  if !resp.ok then .error (url, resp.status)
  else if isGzPath pathname then
    match resp.body with
    | none => .ok []
    | some b => .ok (gunzipText b)
  else
    match resp.body with
    | none => .ok []
    | some b => .ok (bodyText b)

/-- `fast-xml-parser` yields a single object for one child element and
an array for several; `Array.isArray(x) ? x : [x]` normalises both to a
list. -/
inductive OneOrMany (α : Type) where
  | one : α → OneOrMany α
  | many : List α → OneOrMany α
deriving DecidableEq

/-- The normalisation `Array.isArray(x) ? x : [x]` used by both parsers. -/
def OneOrMany.toList {α : Type} : OneOrMany α → List α
  | .one a => [a]
  | .many l => l

/-- A parsed `<url>` or `<sitemap>` element: its `loc` child text, which
may be absent (`u?.loc` is `undefined`). -/
structure LocEntry where
  loc : Option Str
deriving DecidableEq

/-- A parsed sitemap document, abstracted at the level the parsers
inspect it: `doc?.urlset?.url`, `doc?.sitemapindex?.sitemap`, or neither
(`SitemapParserFactory.from` falls back to the urlset parser, which
yields `[]` on such a document). -/
inductive SitemapDoc where
  | urlset (urls : Option (OneOrMany LocEntry))
  | index (entries : Option (OneOrMany LocEntry))
  | other
deriving DecidableEq

/-- `list.map((u) => u?.loc).filter(Boolean)` from
`UrlsetParser.extractUrls` (`src/sitemap.ts` line 44): keep only
present, non-empty (truthy) `loc` values, in order. -/
def truthyStrings : List (Option Str) → List Str
  | [] => []
  | none :: rest => truthyStrings rest
  | some s :: rest =>
    if s.isEmpty then truthyStrings rest else s :: truthyStrings rest

/-- `UrlsetParser.extractUrls` (`src/sitemap.ts` lines 38-45): missing
`urlset`/`url` yields `[]`; otherwise normalise to a list and extract
truthy `loc` values in document order. -/
def urlsetExtract : Option (OneOrMany LocEntry) → List Str
  | none => []
  | some l => truthyStrings (l.toList.map LocEntry.loc)

/-- Why a sitemap fetch failed: a non-2xx HTTP status, or a thrown
network error. -/
inductive FetchFailure where
  | httpStatus (status : Nat)
  | network
deriving DecidableEq

/-- Outcome of a failed resolution: a child fetch failure propagating
out of `IndexParser.extractUrls` (carrying the requested URL, as the
`fetchText` error does), or exhaustion of the modelling depth budget —
the source recursion has no depth guard, so `depthExhausted` at every
budget exhibits divergence. -/
inductive ResolveErr where
  | fetchFail (url : Str) (failure : FetchFailure)
  | depthExhausted
deriving DecidableEq

/-- The child loop of `IndexParser.extractUrls` (`src/sitemap.ts` lines
62-69), parameterised by the recursive resolution `recurse` applied to
each fetched child document. Entries with a missing or empty (falsy)
`loc` are skipped; a failing child fetch or child resolution aborts the
whole loop (nothing is caught per branch); child URL lists are
concatenated in entry order. `env` models `source.fetchText` composed
with XML parsing: the child document, or the fetch failure. -/
def extractChildrenF (recurse : SitemapDoc → Except ResolveErr (List Str))
    (env : Str → Except FetchFailure SitemapDoc) :
    List LocEntry → Except ResolveErr (List Str)
  | [] => .ok []
  | e :: rest =>
    match e.loc with
    | none => extractChildrenF recurse env rest
    | some childLoc =>
      if childLoc.isEmpty then extractChildrenF recurse env rest
      else
        match env childLoc with
        | .error failure => .error (.fetchFail childLoc failure)
        | .ok childDoc =>
          match recurse childDoc with
          | .error err => .error err
          | .ok childUrls =>
            match extractChildrenF recurse env rest with
            | .error err => .error err
            | .ok restUrls => .ok (childUrls ++ restUrls)

/-- Resolution of a parsed sitemap document: `UrlsetParser.extractUrls`
on url sets (and on unknown roots, where the factory falls back to the
urlset parser and extraction yields `[]`), `IndexParser.extractUrls` on
indexes. The source recursion carries no depth bound; `depth` is the
modelling budget for nested index levels, decremented at each index
with entries — a result of `.error .depthExhausted` at every budget
witnesses divergence of the unguarded source recursion. -/
def extractUrls (env : Str → Except FetchFailure SitemapDoc) :
    Nat → SitemapDoc → Except ResolveErr (List Str)
  | _, .urlset us => .ok (urlsetExtract us)
  | _, .other => .ok []
  | _, .index none => .ok []
  | 0, .index (some _) => .error .depthExhausted
  | depth + 1, .index (some l) =>
    extractChildrenF (fun d => extractUrls env depth d) env l.toList

/-- A sitemap index URL whose document lists itself as its only child:
the concrete input on which the source recursion never terminates. -/
def cycUrl : Str := "https://example.com/sitemap.xml".data

/-- The self-referencing index document served at `cycUrl`. -/
def cycDoc : SitemapDoc := .index (some (.one ⟨some cycUrl⟩))

/-- The fetch environment serving the self-referencing index. -/
def cycEnv : Str → Except FetchFailure SitemapDoc := fun _ => .ok cycDoc

/-- Where control of the `pLimit` loop (`src/crawler.ts` lines 39-48)
sits: `loop` — at the top of the `for` loop, about to start the next
item; `race k` — suspended on `await Promise.race(executing)` entered
when the executing set had size `k`; `drain` — past the loop, suspended
on `await Promise.all(executing)`. -/
inductive Phase where
  | loop : Phase
  | race : Nat → Phase
  | drain : Phase
deriving DecidableEq

/-- A snapshot of one `pLimit` run: items not yet started, the
`executing` set (as a list), items started so far in start order, and
the record of settled tasks (for `crawlBatch`, the `out` array: each
task pushes exactly one result when it settles). -/
structure PState (α ρ : Type) where
  pending : List α
  running : List α
  started : List α
  out : List ρ
  phase : Phase

/-- Small-step semantics of `pLimit(items, limit, fn)`. Tasks settle
only at the two suspension points (`race`, `drain`), matching the JS
event loop; `res u` is the record task `u` appends on settlement.
`startGo`/`startWait`: one loop iteration starts `fn(item)`, adds it to
`executing`, then awaits the race iff `executing.size >= limit`.
`raceSettle`: while suspended on the race, any executing task may
settle, its `finally` removing it from the set. `raceResume`: the race
continuation runs once the set has shrunk below its size at entry
(at least one task settled). `toDrain`: the loop ends when no items
remain. `drainSettle`: `Promise.all` waits for every remaining task. -/
inductive PStep {α ρ : Type} (limit : Nat) (res : α → ρ) :
    PState α ρ → PState α ρ → Prop where
  | startGo (x : α) (pend run st : List α) (out : List ρ) :
      run.length + 1 < limit →
      PStep limit res ⟨x :: pend, run, st, out, .loop⟩
        ⟨pend, run ++ [x], st ++ [x], out, .loop⟩
  | startWait (x : α) (pend run st : List α) (out : List ρ) :
      limit ≤ run.length + 1 →
      PStep limit res ⟨x :: pend, run, st, out, .loop⟩
        ⟨pend, run ++ [x], st ++ [x], out, .race (run.length + 1)⟩
  | raceSettle (pend l1 l2 : List α) (u : α) (st : List α) (out : List ρ)
      (k : Nat) :
      PStep limit res ⟨pend, l1 ++ u :: l2, st, out, .race k⟩
        ⟨pend, l1 ++ l2, st, out ++ [res u], .race k⟩
  | raceResume (pend run st : List α) (out : List ρ) (k : Nat) :
      run.length < k →
      PStep limit res ⟨pend, run, st, out, .race k⟩
        ⟨pend, run, st, out, .loop⟩
  | toDrain (run st : List α) (out : List ρ) :
      PStep limit res ⟨[], run, st, out, .loop⟩
        ⟨[], run, st, out, .drain⟩
  | drainSettle (pend l1 l2 : List α) (u : α) (st : List α) (out : List ρ) :
      PStep limit res ⟨pend, l1 ++ u :: l2, st, out, .drain⟩
        ⟨pend, l1 ++ l2, st, out ++ [res u], .drain⟩

/-- The state at entry of `pLimit`: nothing started, nothing settled. -/
def pInit {α ρ : Type} (items : List α) : PState α ρ := ⟨items, [], [], [], .loop⟩

/-- States reachable in one `pLimit(items, limit, fn)` call. -/
def PReach {α ρ : Type} (limit : Nat) (res : α → ρ) (items : List α)
    (s : PState α ρ) : Prop :=
  Relation.ReflTransGen (PStep limit res) (pInit items) s

/-- The call has returned: past the loop with the `executing` set empty
(`await Promise.all` resolved). -/
def PDone {α ρ : Type} (s : PState α ρ) : Prop :=
  s.phase = .drain ∧ s.running = []

/-- Run invariant of the `pLimit` semantics: start order is input order
(`started` is always the consumed front of `items`); every started task
is either executing or has settled exactly one record; the executing
set never exceeds `max limit 1`; at the loop head a slot is free; a
race was entered with a nonempty set of size at most the cap; past the
loop no items are pending. -/
def PInv {α ρ : Type} (limit : Nat) (items : List α) (s : PState α ρ) : Prop :=
  s.started ++ s.pending = items ∧
  s.out.length + s.running.length = s.started.length ∧
  s.running.length ≤ max limit 1 ∧
  (s.phase = .loop → s.running.length + 1 ≤ max limit 1) ∧
  (∀ k, s.phase = .race k → 1 ≤ k ∧ k ≤ max limit 1) ∧
  (s.phase = .drain → s.pending = [])

/-- Termination measure for the `pLimit` semantics. -/
def pMeasure {α ρ : Type} (s : PState α ρ) : Nat :=
  2 * s.pending.length + s.running.length +
    (match s.phase with | .drain => 0 | _ => 1)

/-- The step relation of `crawlBatch(urls, userAgent, concurrency)`
(`src/crawler.ts` lines 53-68): `pLimit` at `Math.max(1, concurrency)`
over the per-URL task body. `robotsAllowed url` is the verdict of
`allowedByRobots` for that URL and `fetchPage url` the outcome of
`fetch(url)` (`none` = thrown). -/
def crawlStep (robotsAllowed : Str → Bool) (fetchPage : Str → Option (Bool × Nat))
    (concurrency : Nat) : PState Str CrawlResult → PState Str CrawlResult → Prop :=
  PStep (max 1 concurrency)
    (fun url => crawlTask (robotsAllowed url) (fetchPage url) url)

/-- States reachable in one `crawlBatch` call. -/
def crawlBatchReach (robotsAllowed : Str → Bool)
    (fetchPage : Str → Option (Bool × Nat)) (concurrency : Nat)
    (urls : List Str) (s : PState Str CrawlResult) : Prop :=
  Relation.ReflTransGen (crawlStep robotsAllowed fetchPage concurrency)
    (pInit urls) s

/-- The chunking loop of `QueueEnqueuer.enqueueMany`:
`for (let i = 0; i < urls.length; i += chunkSize) urls.slice(i, i + chunkSize)`.
For `c ≥ 1`, `xs.drop (c - 1)` after removing the head equals dropping
`c` from the whole list, so each chunk is `slice(i, i + c)`. -/
def chunksOf {α : Type} (c : Nat) : List α → List (List α)
  | [] => []
  | x :: xs => (x :: xs).take c :: chunksOf c (xs.drop (c - 1))
termination_by l => l.length
decreasing_by simp [List.length_drop]; omega

/-- `QueueEnqueuer.enqueueMany(urls)` (`src/index.ts`): the sequence of
batches handed to `queue.sendBatch` (chunk size 1000, message bodies
are the URLs), and the returned count `urls.length`. -/
def queueEnqueueMany (urls : List Str) : List (List Str) × Nat :=
  (chunksOf 1000 urls, urls.length)

/-- `InlineEnqueuer.enqueueMany(urls)` (`src/index.ts`): runs
`crawlBatch` (whose results are used only for a log line) and returns
`urls.length` — the count submitted, independent of the results. -/
def inlineEnqueueMany (_crawlResults : List CrawlResult) (urls : List Str) :
    Nat :=
  urls.length

/-- The sequential `await this.queue.sendBatch(...)` loop of
`QueueEnqueuer.enqueueMany` under a fallible collaborator: `sendOk`
says whether a batch send resolves or rejects. Returns the chunks
actually forwarded before any rejection, and whether the loop ran to
completion; a rejection stops the loop at that chunk. -/
def queueSendLoop (sendOk : List Str → Bool) :
    List (List Str) → List (List Str) × Bool
  | [] => ([], true)
  | chunk :: rest =>
    if sendOk chunk then
      let r := queueSendLoop sendOk rest
      (chunk :: r.1, r.2)
    else ([], false)

/-- `QueueEnqueuer.enqueueMany` under a fallible collaborator: the
chunks forwarded, and `some urls.length` if every send resolved, else
`none` (the rejection propagates out of `enqueueMany`; no count is
returned). -/
def queueEnqueueRun (sendOk : List Str → Bool) (urls : List Str) :
    List (List Str) × Option Nat :=
  let r := queueSendLoop sendOk (chunksOf 1000 urls)
  (r.1, if r.2 then some urls.length else none)

/-- A concrete fetch environment used for witnesses: two url-set child
sitemaps (the second sharing a URL with the first, to exhibit duplicate
preservation) and a network failure on every other URL. -/
def demoEnv : Str → Except FetchFailure SitemapDoc := fun c =>
  if c = "c1".data then
    .ok (.urlset (some (.many [⟨some "u1".data⟩, ⟨some "u2".data⟩])))
  else if c = "c2".data then
    .ok (.urlset (some (.many [⟨some "u2".data⟩, ⟨some "u3".data⟩,
      ⟨some "u4".data⟩])))
  else .error .network

/-! ## Helper lemmas -/

theorem chunksOf_cons {α : Type} (c : Nat) (x : α) (xs : List α) :
    chunksOf c (x :: xs) = (x :: xs).take c :: chunksOf c (xs.drop (c - 1)) := by
  rw [chunksOf]

theorem chunksOf_length {α : Type} (c : Nat) (hc : 1 ≤ c) :
    ∀ (n : Nat) (l : List α), l.length ≤ n →
      (chunksOf c l).length = (l.length + (c - 1)) / c := by
  intro n
  induction n with
  | zero =>
    intro l hl
    have hnil : l = [] := List.length_eq_zero.mp (Nat.le_zero.mp hl)
    subst hnil
    have h0 : chunksOf c ([] : List α) = [] := by rw [chunksOf]
    have h2 : (c - 1) / c = 0 := Nat.div_eq_of_lt (by omega)
    rw [h0]
    simp only [List.length_nil, Nat.zero_add]
    omega
  | succ n ih =>
    intro l hl
    cases l with
    | nil =>
      have h0 : chunksOf c ([] : List α) = [] := by rw [chunksOf]
      have h2 : (c - 1) / c = 0 := Nat.div_eq_of_lt (by omega)
      rw [h0]
      simp only [List.length_nil, Nat.zero_add]
      omega
    | cons x xs =>
      rw [chunksOf_cons]
      simp only [List.length_cons]
      rw [ih (xs.drop (c - 1))
        (by simp only [List.length_drop, List.length_cons] at hl ⊢; omega)]
      simp only [List.length_drop]
      rcases Nat.le_total xs.length (c - 1) with h | h
      · have h1 : xs.length - (c - 1) + (c - 1) = c - 1 := by omega
        have h2 : (c - 1) / c = 0 := Nat.div_eq_of_lt (by omega)
        have h3 : xs.length + 1 + (c - 1) = xs.length + c := by omega
        have h4 : (xs.length + c) / c = xs.length / c + 1 :=
          Nat.add_div_right _ (by omega)
        have h5 : xs.length / c = 0 := Nat.div_eq_of_lt (by omega)
        rw [h1, h2, h3, h4, h5]
      · have h1 : xs.length - (c - 1) + (c - 1) = xs.length := by omega
        have h3 : xs.length + 1 + (c - 1) = xs.length + c := by omega
        rw [h1, h3, Nat.add_div_right _ (by omega)]

theorem chunksOf_flatten {α : Type} (c : Nat) (hc : 1 ≤ c) :
    ∀ (n : Nat) (l : List α), l.length ≤ n → (chunksOf c l).flatten = l := by
  intro n
  induction n with
  | zero =>
    intro l hl
    have hnil : l = [] := List.length_eq_zero.mp (Nat.le_zero.mp hl)
    subst hnil
    simp [chunksOf]
  | succ n ih =>
    intro l hl
    cases l with
    | nil => simp [chunksOf]
    | cons x xs =>
      rw [chunksOf_cons]
      simp only [List.flatten_cons]
      rw [ih (xs.drop (c - 1))
        (by simp only [List.length_drop, List.length_cons] at *; omega)]
      obtain ⟨k, rfl⟩ : ∃ k, c = k + 1 := ⟨c - 1, by omega⟩
      simp only [List.take_succ_cons, Nat.add_sub_cancel, List.cons_append,
        List.cons.injEq, true_and]
      exact List.take_append_drop k xs

theorem chunksOf_singleton {α : Type} (c : Nat) (hc : 1 ≤ c) (a : α) :
    chunksOf c [a] = [[a]] := by
  obtain ⟨k, rfl⟩ : ∃ k, c = k + 1 := ⟨c - 1, by omega⟩
  rw [chunksOf_cons]
  simp [chunksOf]

theorem queueSendLoop_halt (sendOk : List Str → Bool) :
    ∀ (pre : List (List Str)) (chunk : List Str) (post : List (List Str)),
      (∀ d ∈ pre, sendOk d = true) → sendOk chunk = false →
      queueSendLoop sendOk (pre ++ chunk :: post) = (pre, false) := by
  intro pre
  induction pre with
  | nil =>
    intro chunk post _ hfail
    simp [queueSendLoop, hfail]
  | cons d rest ih =>
    intro chunk post hpre hfail
    have hd : sendOk d = true := hpre d (by simp)
    simp [queueSendLoop, hd,
      ih chunk post (fun e he => hpre e (by simp [he])) hfail]

/-! ## Claims -/

/-- Claim C1. The claim says index resolution tracks already-fetched
sitemap URLs and/or bounds depth so that it terminates on
self-referencing indexes. The source recursion
(`IndexParser.extractUrls`, `src/sitemap.ts` lines 51-72) has neither
guard: on an index document that lists itself as its only child, the
resolution exceeds every depth budget — it never completes. -/
theorem C1_cyclic_index_never_resolves :
    ∀ depth : Nat, extractUrls cycEnv depth cycDoc = .error .depthExhausted := by
  intro depth
  induction depth with
  | zero => rfl
  | succ d ih =>
    have h : extractUrls cycEnv (d + 1) cycDoc =
        (match extractUrls cycEnv d cycDoc with
         | .error err => .error err
         | .ok childUrls => .ok (childUrls ++ [])) := rfl
    rw [h, ih]

/-- Claim C8. `fetchText` decompresses the response body before text
decoding exactly when the URL's path ends in `.gz` case-insensitively;
a `.gz` URL with no body yields the empty string, and a non-`.gz`
response is decoded as text unchanged. -/
theorem C8_gzip_exactly_on_gz_suffix :
    ∀ (β : Type) (gunzipText bodyText : β → Str) (url pathname : Str)
      (resp : HttpResp β),
      resp.ok = true →
      (isGzPath pathname = true →
        fetchTextM gunzipText bodyText url pathname resp =
          .ok (match resp.body with | none => [] | some b => gunzipText b)) ∧
      (isGzPath pathname = false →
        fetchTextM gunzipText bodyText url pathname resp =
          .ok (match resp.body with | none => [] | some b => bodyText b)) := by
  intro β gz dec url p resp hok
  constructor <;> intro hgz <;> cases hb : resp.body <;>
    simp [fetchTextM, hok, hgz, hb]

/-- Claim C9. `InlineEnqueuer.enqueueMany` returns the count of URLs
submitted — the input length, whatever the crawl results were — and
`QueueEnqueuer.enqueueMany` sends `ceil(total/1000)` fixed-size batches
covering exactly the input URLs and returns the total forwarded. -/
theorem C9_enqueuer_counts (urls : List Str) :
    (∀ results : List CrawlResult, inlineEnqueueMany results urls = urls.length) ∧
    (queueEnqueueMany urls).2 = urls.length ∧
    ((queueEnqueueMany urls).1).length = (urls.length + 999) / 1000 ∧
    ((queueEnqueueMany urls).1).flatten = urls := by
  refine ⟨fun _ => rfl, rfl, ?_, ?_⟩
  · exact chunksOf_length 1000 (by omega) urls.length urls le_rfl
  · exact chunksOf_flatten 1000 (by omega) urls.length urls le_rfl

/-- Claim C10. `QueueEnqueuer.enqueueMany` is not atomic on failure:
chunks are sent sequentially and awaited one at a time, so when the
collaborator rejects a chunk, exactly the earlier chunks have already
been forwarded and the exception propagates — no count is returned. -/
theorem C10_queue_chunk_failure_stops_midway (sendOk : List Str → Bool)
    (urls : List Str) (pre : List (List Str)) (chunk : List Str)
    (post : List (List Str))
    (hsplit : chunksOf 1000 urls = pre ++ chunk :: post)
    (hpre : ∀ d ∈ pre, sendOk d = true) (hfail : sendOk chunk = false) :
    (queueEnqueueRun sendOk urls).1 = pre ∧
      (queueEnqueueRun sendOk urls).2 = none := by
  have h := queueSendLoop_halt sendOk pre chunk post hpre hfail
  simp [queueEnqueueRun, hsplit, h]

/-- Witness for C10: a single-chunk send that rejects forwards nothing
and returns no count. -/
theorem C10_queue_chunk_failure_stops_midway_witness :
    (queueEnqueueRun (fun _ => false) ["u".data]).1 = [] ∧
      (queueEnqueueRun (fun _ => false) ["u".data]).2 = none :=
  C10_queue_chunk_failure_stops_midway (fun _ => false) ["u".data] []
    ["u".data] [] (by rw [chunksOf_singleton 1000 (by omega)]; rfl)
    (by simp) rfl

/-- Appending behaviour of the `IndexParser` child loop: a front
segment of entries whose fetch and recursive resolution all succeed
contributes the concatenation of its child URL lists, in entry order,
before whatever the remaining entries produce; an error in the
remainder propagates. -/
theorem extractChildrenF_append_ok
    (recurse : SitemapDoc → Except ResolveErr (List Str))
    (env : Str → Except FetchFailure SitemapDoc) (cs : List Str)
    (d : Str → SitemapDoc) (u : Str → List Str)
    (h : ∀ c ∈ cs, c.isEmpty = false ∧ env c = .ok (d c) ∧
      recurse (d c) = .ok (u c)) :
    ∀ tail : List LocEntry,
      extractChildrenF recurse env ((cs.map fun c => ⟨some c⟩) ++ tail) =
        match extractChildrenF recurse env tail with
        | .error err => .error err
        | .ok restUrls => .ok (cs.flatMap u ++ restUrls) := by
  induction cs with
  | nil =>
    intro tail
    cases htail : extractChildrenF recurse env tail <;> simp [htail]
  | cons c cs ih =>
    intro tail
    obtain ⟨hne, henv, hrec⟩ := h c (by simp)
    have ih2 := ih (fun e he => h e (by simp [he]))
    simp only [List.map_cons, List.cons_append, extractChildrenF, hne,
      Bool.false_eq_true, if_false, henv, hrec, List.append_eq]
    rw [ih2 tail]
    cases htail : extractChildrenF recurse env tail <;>
      simp [List.flatMap_cons, List.append_assoc]

/-- All-`some`, non-empty `loc` values pass the truthiness filter
unchanged. -/
theorem truthyStrings_all_some (locs : List Str)
    (h : ∀ s ∈ locs, s.isEmpty = false) :
    truthyStrings (locs.map some) = locs := by
  induction locs with
  | nil => rfl
  | cons s rest ih =>
    have hs := h s (by simp)
    simp [truthyStrings, hs, ih (fun e he => h e (by simp [he]))]

/-- Claim C3. Resolution preserves depth-first document discovery order
and never deduplicates: a urlset document yields its `loc` values in
document order, and an index over children `c₁ … cM` that resolve to
lists `u c₁ … u cM` yields their concatenation — each child's
contribution contiguous, in child-reference order. -/
theorem C3_resolution_depth_first_order
    (env : Str → Except FetchFailure SitemapDoc) (depth : Nat) :
    (∀ locs : List Str, (∀ s ∈ locs, s.isEmpty = false) →
      extractUrls env depth
        (.urlset (some (.many (locs.map fun s => ⟨some s⟩)))) = .ok locs) ∧
    (∀ (cs : List Str) (d : Str → SitemapDoc) (u : Str → List Str),
      (∀ c ∈ cs, c.isEmpty = false ∧ env c = .ok (d c) ∧
        extractUrls env depth (d c) = .ok (u c)) →
      extractUrls env (depth + 1)
        (.index (some (.many (cs.map fun c => ⟨some c⟩)))) =
          .ok (cs.flatMap u)) := by
  constructor
  · intro locs h
    have hmap : (locs.map fun s => (⟨some s⟩ : LocEntry)).map LocEntry.loc =
        locs.map some := by
      rw [List.map_map]
      rfl
    have hex : urlsetExtract (some (.many (locs.map fun s => ⟨some s⟩))) =
        locs := by
      simp only [urlsetExtract, OneOrMany.toList]
      rw [hmap, truthyStrings_all_some locs h]
    cases depth <;> simp [extractUrls, hex]
  · intro cs d u h
    have hmain := extractChildrenF_append_ok
      (fun doc => extractUrls env depth doc) env cs d u h []
    simp only [extractChildrenF] at hmain
    show extractChildrenF (fun doc => extractUrls env depth doc) env
        (OneOrMany.toList (.many (cs.map fun c => ⟨some c⟩))) = _
    simp only [OneOrMany.toList]
    rw [show (cs.map fun c => (⟨some c⟩ : LocEntry)) =
      (cs.map fun c => (⟨some c⟩ : LocEntry)) ++ [] by simp]
    rw [hmain]
    simp

/-- Witness for C3: a two-child index resolves depth-first — child 1's
URLs first, then child 2's — with the URL shared by both children kept
twice (no deduplication). -/
theorem C3_resolution_depth_first_order_witness :
    extractUrls demoEnv 1
      (.index (some (.many [⟨some "c1".data⟩, ⟨some "c2".data⟩]))) =
      .ok ["u1".data, "u2".data, "u2".data, "u3".data, "u4".data] := by
  have h := (C3_resolution_depth_first_order demoEnv 0).2
    ["c1".data, "c2".data]
    (fun c => if c = "c1".data then
        .urlset (some (.many [⟨some "u1".data⟩, ⟨some "u2".data⟩]))
      else
        .urlset (some (.many [⟨some "u2".data⟩, ⟨some "u3".data⟩,
          ⟨some "u4".data⟩])))
    (fun c => if c = "c1".data then ["u1".data, "u2".data]
      else ["u2".data, "u3".data, "u4".data])
    (by decide)
  exact h.trans (by decide)

/-- Claim C7. A sitemap or child-sitemap fetch failure is fatal for the
whole resolution: `fetchText` fails on a non-2xx response with an error
carrying the URL and status, and in `IndexParser.extractUrls` a failing
child fetch propagates out of the entire index resolution — earlier
successful children notwithstanding — because nothing is caught per
branch. -/
theorem C7_fetch_failure_fatal :
    (∀ (β : Type) (gunzipText bodyText : β → Str) (url pathname : Str)
      (resp : HttpResp β), resp.ok = false →
      fetchTextM gunzipText bodyText url pathname resp =
        .error (url, resp.status)) ∧
    (∀ (env : Str → Except FetchFailure SitemapDoc) (depth : Nat)
      (cs : List Str) (d : Str → SitemapDoc) (u : Str → List Str)
      (c0 : Str) (fe : FetchFailure) (post : List LocEntry),
      (∀ c ∈ cs, c.isEmpty = false ∧ env c = .ok (d c) ∧
        extractUrls env depth (d c) = .ok (u c)) →
      c0.isEmpty = false → env c0 = .error fe →
      extractUrls env (depth + 1)
        (.index (some (.many
          ((cs.map fun c => ⟨some c⟩) ++ ⟨some c0⟩ :: post)))) =
        .error (.fetchFail c0 fe)) := by
  constructor
  · intro β gz dec url p resp hok
    simp [fetchTextM, hok]
  · intro env depth cs d u c0 fe post h hc0 henv
    have hmain := extractChildrenF_append_ok
      (fun doc => extractUrls env depth doc) env cs d u h (⟨some c0⟩ :: post)
    show extractChildrenF (fun doc => extractUrls env depth doc) env
        (OneOrMany.toList (.many
          ((cs.map fun c => ⟨some c⟩) ++ ⟨some c0⟩ :: post))) = _
    simp only [OneOrMany.toList]
    rw [hmain]
    simp [extractChildrenF, hc0, henv]

/-- Witness for C7: a 404 on the sitemap fetch errors with the URL and
status, and an index whose second child fetch fails aborts the whole
resolution with that child's failure, despite the first child
resolving fine. -/
theorem C7_fetch_failure_fatal_witness :
    fetchTextM (fun b : Str => b) (fun b => b) "https://a/s.xml".data
      "/s.xml".data (⟨false, 404, none⟩ : HttpResp Str) =
      .error ("https://a/s.xml".data, 404) ∧
    extractUrls demoEnv 1
      (.index (some (.many [⟨some "c1".data⟩, ⟨some "bad".data⟩]))) =
      .error (.fetchFail "bad".data .network) := by
  constructor
  · exact C7_fetch_failure_fatal.1 Str _ _ _ _ _ rfl
  · exact C7_fetch_failure_fatal.2 demoEnv 0 ["c1".data]
      (fun _ => .urlset (some (.many [⟨some "u1".data⟩, ⟨some "u2".data⟩])))
      (fun _ => ["u1".data, "u2".data]) "bad".data .network []
      (by decide) (by decide) (by decide)

/-- Claim C5. `allowedByRobots` returns `false` only when the checked
path starts with a collected, non-root `Disallow` value gathered while
a user-agent block applicable to the agent (wildcard `*` or
case-insensitive identity match) was active; it returns `true` on a
URL-parse exception, a robots fetch exception, a non-2xx robots
response, or when no collected rule other than the bare root `/`
matches the path — in particular a bare `Disallow: /` never blocks. -/
theorem C5_robots_check_permissive :
    (∀ (f : Str → Option (Bool × Str)) (agent : Str),
      allowedByRobots none f agent = true) ∧
    (∀ (origin pathname : Str) (f : Str → Option (Bool × Str)) (agent : Str),
      f (origin ++ "/robots.txt".data) = none →
      allowedByRobots (some (origin, pathname)) f agent = true) ∧
    (∀ (origin pathname : Str) (f : Str → Option (Bool × Str)) (agent : Str)
      (text : Str),
      f (origin ++ "/robots.txt".data) = some (false, text) →
      allowedByRobots (some (origin, pathname)) f agent = true) ∧
    (∀ (origin pathname : Str) (f : Str → Option (Bool × Str)) (agent : Str)
      (text : Str),
      f (origin ++ "/robots.txt".data) = some (true, text) →
      (allowedByRobots (some (origin, pathname)) f agent = false ↔
        ∃ rule ∈ collectDisallows agent ((jsLines text).map jsTrim) false,
          rule ≠ "/".data ∧ jsStartsWith pathname rule = true)) ∧
    (∀ (origin pathname : Str) (f : Str → Option (Bool × Str)) (agent : Str)
      (text : Str),
      f (origin ++ "/robots.txt".data) = some (true, text) →
      (∀ rule ∈ collectDisallows agent ((jsLines text).map jsTrim) false,
        rule = "/".data) →
      allowedByRobots (some (origin, pathname)) f agent = true) := by
  refine ⟨?_, ?_, ?_, ?_, ?_⟩
  · intro f agent
    rfl
  · intro o p f agent hf
    simp [allowedByRobots, hf]
  · intro o p f agent text hf
    simp [allowedByRobots, hf]
  · intro o p f agent text hf
    simp [allowedByRobots, hf, robotsVerdict, List.any_eq_true,
      Bool.and_eq_true, bne_iff_ne]
  · intro o p f agent text hf hall
    have hany : (collectDisallows agent ((jsLines text).map jsTrim) false).any
        (fun rule => (rule != "/".data) && jsStartsWith p rule) = false := by
      rw [List.any_eq_false]
      intro rule hr
      rw [hall rule hr]
      simp
    simp [allowedByRobots, hf, robotsVerdict, hany]

/-- Witness for C5: with `User-agent: *` rules `/private` and `/`, the
path `/private/a` is disallowed; a robots.txt consisting only of a bare
`Disallow: /` blocks nothing; an unparsable URL is allowed. -/
theorem C5_robots_check_permissive_witness :
    allowedByRobots (some ("https://x.com".data, "/private/a".data))
      (fun _ => some (true,
        "User-agent: *\nDisallow: /private\nDisallow: /".data))
      "Bot".data = false ∧
    allowedByRobots (some ("https://x.com".data, "/private/a".data))
      (fun _ => some (true, "User-agent: *\nDisallow: /".data))
      "Bot".data = true ∧
    allowedByRobots none (fun _ => none) "Bot".data = true := by
  refine ⟨?_, ?_, ?_⟩
  · exact (C5_robots_check_permissive.2.2.2.1 "https://x.com".data
      "/private/a".data _ "Bot".data
      "User-agent: *\nDisallow: /private\nDisallow: /".data rfl).mpr
      (by decide)
  · exact C5_robots_check_permissive.2.2.2.2 "https://x.com".data
      "/private/a".data _ "Bot".data "User-agent: *\nDisallow: /".data rfl
      (by decide)
  · exact C5_robots_check_permissive.1 _ _

/-- Witness for C8: an upper-case `.GZ` path is decompressed, a
non-`.gz` path is decoded unchanged, and a `.gz` path with no body
yields the empty string. -/
theorem C8_gzip_exactly_on_gz_suffix_witness :
    fetchTextM (fun b : Str => '!' :: b) (fun b => b) "u".data "/A.GZ".data
      ⟨true, 200, some "x".data⟩ = .ok ('!' :: "x".data) ∧
    fetchTextM (fun b : Str => '!' :: b) (fun b => b) "u".data "/a.xml".data
      ⟨true, 200, some "x".data⟩ = .ok "x".data ∧
    fetchTextM (fun b : Str => '!' :: b) (fun b => b) "u".data "/a.gz".data
      ⟨true, 200, none⟩ = .ok [] := by
  refine ⟨?_, ?_, ?_⟩
  · exact (C8_gzip_exactly_on_gz_suffix Str _ _ "u".data "/A.GZ".data _
      rfl).1 (by decide)
  · exact (C8_gzip_exactly_on_gz_suffix Str _ _ "u".data "/a.xml".data _
      rfl).2 (by decide)
  · exact (C8_gzip_exactly_on_gz_suffix Str _ _ "u".data "/a.gz".data _
      rfl).1 (by decide)

/-- The initial `pLimit` state satisfies the run invariant. -/
theorem pinit_inv {α ρ : Type} (limit : Nat) (items : List α) :
    PInv limit items (pInit (ρ := ρ) items) := by
  refine ⟨rfl, rfl, ?_, ?_, ?_, ?_⟩ <;> simp [pInit, PState.running]

/-- Every `pLimit` step preserves the run invariant. -/
theorem pstep_inv {α ρ : Type} {limit : Nat} {res : α → ρ} {items : List α}
    {s t : PState α ρ} (h : PStep limit res s t) (hI : PInv limit items s) :
    PInv limit items t := by
  cases h with
  | startGo x pend run st out hlt =>
    obtain ⟨h1, h2, h3, h4, h5, h6⟩ := hI
    dsimp only at h1 h2 h3 h4 h5 h6
    have h4l := h4 rfl
    refine ⟨by simpa using h1, ?_, ?_, ?_, ?_, ?_⟩
    · simp only [List.length_append, List.length_cons, List.length_nil] at h2 ⊢
      omega
    · simp only [List.length_append, List.length_cons, List.length_nil]
      omega
    · intro _
      simp only [List.length_append, List.length_cons, List.length_nil]
      omega
    · intro k hk
      simp at hk
    · intro hk
      simp at hk
  | startWait x pend run st out hge =>
    obtain ⟨h1, h2, h3, h4, h5, h6⟩ := hI
    dsimp only at h1 h2 h3 h4 h5 h6
    have h4l := h4 rfl
    refine ⟨by simpa using h1, ?_, ?_, ?_, ?_, ?_⟩
    · simp only [List.length_append, List.length_cons, List.length_nil] at h2 ⊢
      omega
    · simp only [List.length_append, List.length_cons, List.length_nil]
      omega
    · intro hk
      simp at hk
    · intro k' hk
      simp only [Phase.race.injEq] at hk
      subst hk
      omega
    · intro hk
      simp at hk
  | raceSettle pend l1 l2 u st out k =>
    obtain ⟨h1, h2, h3, h4, h5, h6⟩ := hI
    dsimp only at h1 h2 h3 h4 h5 h6
    have h5l := h5 k rfl
    refine ⟨by simpa using h1, ?_, ?_, ?_, ?_, ?_⟩
    · simp only [List.length_append, List.length_cons, List.length_nil] at h2 ⊢
      omega
    · simp only [List.length_append, List.length_cons] at h3 ⊢
      omega
    · intro hk
      simp at hk
    · intro k' hk
      simp only [Phase.race.injEq] at hk
      subst hk
      exact h5l
    · intro hk
      simp at hk
  | raceResume pend run st out k hlt =>
    obtain ⟨h1, h2, h3, h4, h5, h6⟩ := hI
    dsimp only at h1 h2 h3 h4 h5 h6
    have h5l := h5 k rfl
    refine ⟨by simpa using h1, h2, h3, ?_, ?_, ?_⟩
    · intro _
      dsimp only
      omega
    · intro k' hk
      simp at hk
    · intro hk
      simp at hk
  | toDrain run st out =>
    obtain ⟨h1, h2, h3, h4, h5, h6⟩ := hI
    dsimp only at h1 h2 h3 h4 h5 h6
    refine ⟨by simpa using h1, h2, h3, ?_, ?_, ?_⟩
    · intro hk
      simp at hk
    · intro k' hk
      simp at hk
    · intro _
      rfl
  | drainSettle pend l1 l2 u st out =>
    obtain ⟨h1, h2, h3, h4, h5, h6⟩ := hI
    dsimp only at h1 h2 h3 h4 h5 h6
    have h6l := h6 rfl
    refine ⟨by simpa using h1, ?_, ?_, ?_, ?_, ?_⟩
    · simp only [List.length_append, List.length_cons, List.length_nil] at h2 ⊢
      omega
    · simp only [List.length_append, List.length_cons] at h3 ⊢
      omega
    · intro hk
      simp at hk
    · intro k' hk
      simp at hk
    · intro _
      exact h6l

/-- Every state reachable in a `pLimit` run satisfies the invariant. -/
theorem preach_inv {α ρ : Type} {limit : Nat} {res : α → ρ} {items : List α}
    {s : PState α ρ} (h : PReach limit res items s) : PInv limit items s := by
  induction h with
  | refl => exact pinit_inv limit items
  | tail _ hstep ih => exact pstep_inv hstep ih

/-- When a `pLimit` run has returned, every item was started (in input
order) and exactly one record per item was collected. -/
theorem pdone_started {α ρ : Type} {limit : Nat} {items : List α}
    {s : PState α ρ} (hI : PInv limit items s) (hd : PDone s) :
    s.started = items ∧ s.out.length = items.length := by
  obtain ⟨h1, h2, _, _, _, h6⟩ := hI
  obtain ⟨hph, hrun⟩ := hd
  rw [h6 hph, List.append_nil] at h1
  rw [hrun] at h2
  simp only [List.length_nil, Nat.add_zero] at h2
  exact ⟨h1, by rw [h2, h1]⟩

/-- Progress: from any invariant-satisfying state, some scheduling of
settlements drives the `pLimit` run to completion — the call does not
get stuck; every task settles and the loop drains. -/
theorem pstep_progress {α ρ : Type} (limit : Nat) (res : α → ρ)
    (items : List α) :
    ∀ (n : Nat) (s : PState α ρ), pMeasure s ≤ n → PInv limit items s →
      ∃ t : PState α ρ, Relation.ReflTransGen (PStep limit res) s t ∧
        PDone t ∧ PInv limit items t := by
  intro n
  induction n with
  | zero =>
    intro s hm hI
    obtain ⟨pend, run, st, out, ph⟩ := s
    cases ph with
    | drain =>
      have hrun : run = [] :=
        List.length_eq_zero.mp (by simp only [pMeasure] at hm; omega)
      subst hrun
      exact ⟨_, .refl, ⟨rfl, rfl⟩, hI⟩
    | loop => simp only [pMeasure] at hm; omega
    | race k => simp only [pMeasure] at hm; omega
  | succ n ih =>
    intro s hm hI
    obtain ⟨pend, run, st, out, ph⟩ := s
    cases ph with
    | drain =>
      cases run with
      | nil => exact ⟨_, .refl, ⟨rfl, rfl⟩, hI⟩
      | cons u rest =>
        have hstep : PStep limit res ⟨pend, u :: rest, st, out, .drain⟩
            ⟨pend, rest, st, out ++ [res u], .drain⟩ :=
          PStep.drainSettle pend [] rest u st out
        obtain ⟨t, htr, hd, hIt⟩ := ih ⟨pend, rest, st, out ++ [res u], .drain⟩
          (by simp [pMeasure] at hm ⊢; omega) (pstep_inv hstep hI)
        exact ⟨t, .head hstep htr, hd, hIt⟩
    | loop =>
      cases pend with
      | nil =>
        have hstep : PStep limit res ⟨[], run, st, out, .loop⟩
            ⟨[], run, st, out, .drain⟩ := PStep.toDrain run st out
        obtain ⟨t, htr, hd, hIt⟩ := ih ⟨[], run, st, out, .drain⟩
          (by simp [pMeasure] at hm ⊢; omega) (pstep_inv hstep hI)
        exact ⟨t, .head hstep htr, hd, hIt⟩
      | cons x rest =>
        by_cases hlim : run.length + 1 < limit
        · have hstep : PStep limit res ⟨x :: rest, run, st, out, .loop⟩
              ⟨rest, run ++ [x], st ++ [x], out, .loop⟩ :=
            PStep.startGo x rest run st out hlim
          obtain ⟨t, htr, hd, hIt⟩ := ih ⟨rest, run ++ [x], st ++ [x], out, .loop⟩
            (by simp [pMeasure, List.length_append] at hm ⊢; omega)
            (pstep_inv hstep hI)
          exact ⟨t, .head hstep htr, hd, hIt⟩
        · have hstep : PStep limit res ⟨x :: rest, run, st, out, .loop⟩
              ⟨rest, run ++ [x], st ++ [x], out, .race (run.length + 1)⟩ :=
            PStep.startWait x rest run st out (by omega)
          obtain ⟨t, htr, hd, hIt⟩ := ih
            ⟨rest, run ++ [x], st ++ [x], out, .race (run.length + 1)⟩
            (by simp [pMeasure, List.length_append] at hm ⊢; omega)
            (pstep_inv hstep hI)
          exact ⟨t, .head hstep htr, hd, hIt⟩
    | race k =>
      cases run with
      | cons u rest =>
        have hstep : PStep limit res ⟨pend, u :: rest, st, out, .race k⟩
            ⟨pend, rest, st, out ++ [res u], .race k⟩ :=
          PStep.raceSettle pend [] rest u st out k
        obtain ⟨t, htr, hd, hIt⟩ := ih ⟨pend, rest, st, out ++ [res u], .race k⟩
          (by simp [pMeasure] at hm ⊢; omega) (pstep_inv hstep hI)
        exact ⟨t, .head hstep htr, hd, hIt⟩
      | nil =>
        have hk1 : 1 ≤ k := (hI.2.2.2.2.1 k rfl).1
        have hstep1 : PStep limit res ⟨pend, [], st, out, .race k⟩
            ⟨pend, [], st, out, .loop⟩ :=
          PStep.raceResume pend [] st out k (by simpa using hk1)
        have hI1 := pstep_inv hstep1 hI
        cases pend with
        | nil =>
          have hstep2 : PStep limit res ⟨[], [], st, out, .loop⟩
              ⟨[], [], st, out, .drain⟩ := PStep.toDrain [] st out
          exact ⟨⟨[], [], st, out, .drain⟩, .head hstep1 (.head hstep2 .refl),
            ⟨rfl, rfl⟩, pstep_inv hstep2 hI1⟩
        | cons x rest =>
          by_cases hlim : 0 + 1 < limit
          · have hstep2 : PStep limit res ⟨x :: rest, [], st, out, .loop⟩
                ⟨rest, [] ++ [x], st ++ [x], out, .loop⟩ :=
              PStep.startGo x rest [] st out (by simpa using hlim)
            obtain ⟨t, htr, hd, hIt⟩ := ih ⟨rest, [] ++ [x], st ++ [x], out, .loop⟩
              (by simp [pMeasure] at hm ⊢; omega) (pstep_inv hstep2 hI1)
            exact ⟨t, .head hstep1 (.head hstep2 htr), hd, hIt⟩
          · have hstep2 : PStep limit res ⟨x :: rest, [], st, out, .loop⟩
                ⟨rest, [] ++ [x], st ++ [x], out, .race 1⟩ :=
              PStep.startWait x rest [] st out (by simpa using hlim)
            obtain ⟨t, htr, hd, hIt⟩ := ih
              ⟨rest, [] ++ [x], st ++ [x], out, .race 1⟩
              (by simp [pMeasure] at hm ⊢; omega) (pstep_inv hstep2 hI1)
            exact ⟨t, .head hstep1 (.head hstep2 htr), hd, hIt⟩

/-- With a slot budget at least the number of items, the run reaches a
state in which every item is in the executing set simultaneously:
starting from a loop state whose executing set is exactly the already
consumed front, the remaining items are all started back-to-back. -/
theorem preach_all_running_aux {α ρ : Type} (limit : Nat) (res : α → ρ)
    (items : List α) (hlim : items.length ≤ limit) :
    ∀ (post pre : List α), pre ++ post = items →
      ∃ t : PState α ρ,
        Relation.ReflTransGen (PStep limit res)
          ⟨post, pre, pre, [], .loop⟩ t ∧ t.running = items := by
  intro post
  induction post with
  | nil =>
    intro pre hpre
    exact ⟨⟨[], pre, pre, [], .loop⟩, .refl, by simpa using hpre⟩
  | cons x rest ih =>
    intro pre hpre
    by_cases hcase : pre.length + 1 < limit
    · obtain ⟨t, htr, hrun⟩ := ih (pre ++ [x])
        (by rw [List.append_assoc]; simpa using hpre)
      exact ⟨t, .head (PStep.startGo x rest pre pre [] hcase) htr, hrun⟩
    · have hrest : rest = [] := by
        have hl := congrArg List.length hpre
        simp only [List.length_append, List.length_cons] at hl
        have : rest.length = 0 := by omega
        exact List.length_eq_zero.mp this
      subst hrest
      refine ⟨⟨[], pre ++ [x], pre ++ [x], [], .race (pre.length + 1)⟩,
        .head (PStep.startWait x [] pre pre [] (by omega)) .refl, ?_⟩
      simpa using hpre

/-- Claim C2. In every reachable state of a `pLimit(items, limit, fn)`
run, at most `max limit 1` tasks are executing concurrently (at most
`limit` tasks for any `limit ≥ 1`); items are started in input order
(the started list is always the consumed front of the input); when the
call returns, every item has been started, the executing set is empty,
and every task has settled; and with `limit ≥ items.length` a state is
reached in which all items execute simultaneously (full parallelism). -/
theorem C2_pLimit_bounded_concurrency {α ρ : Type} (limit : Nat)
    (res : α → ρ) (items : List α) :
    (∀ s : PState α ρ, PReach limit res items s →
      s.running.length ≤ max limit 1 ∧
      s.started ++ s.pending = items ∧
      (PDone s → s.started = items ∧ s.running = [] ∧
        s.out.length = items.length)) ∧
    (items.length ≤ limit →
      ∃ t : PState α ρ, PReach limit res items t ∧ t.running = items) := by
  constructor
  · intro s hreach
    have hI := preach_inv hreach
    refine ⟨hI.2.2.1, hI.1, fun hd => ?_⟩
    have h := pdone_started hI hd
    exact ⟨h.1, hd.2, h.2⟩
  · intro hlim
    obtain ⟨t, htr, hrun⟩ :=
      preach_all_running_aux limit res items hlim items [] rfl
    exact ⟨t, htr, hrun⟩

/-- Witness for C2: with limit 2 over two items, the initial state is
within the bound and a fully parallel state (both items running) is
reached. -/
theorem C2_pLimit_bounded_concurrency_witness :
    (pInit (ρ := Nat) ([0, 1] : List Nat)).running.length ≤ max 2 1 ∧
    ∃ t : PState Nat Nat, PReach 2 (fun n => n) [0, 1] t ∧
      t.running = [0, 1] := by
  constructor
  · exact ((C2_pLimit_bounded_concurrency 2 (fun n => n) [0, 1]).1 _
      Relation.ReflTransGen.refl).1
  · exact (C2_pLimit_bounded_concurrency 2 (fun n => n) [0, 1]).2 (by decide)

/-- Claim C4. Whenever a `crawlBatch` run completes, the `out` list
holds exactly one `CrawlResult` per input URL — whatever the robots
verdicts, HTTP outcomes and thrown fetch errors were, and whatever
order completions happened in. -/
theorem C4_crawlBatch_one_result_per_url (robotsAllowed : Str → Bool)
    (fetchPage : Str → Option (Bool × Nat)) (concurrency : Nat)
    (urls : List Str) (s : PState Str CrawlResult)
    (hreach : crawlBatchReach robotsAllowed fetchPage concurrency urls s)
    (hdone : PDone s) : s.out.length = urls.length := by
  have hI := preach_inv hreach
  exact (pdone_started hI hdone).2

/-- Witness for C4: a complete one-URL `crawlBatch` run, stepped
through explicitly, ends with exactly one result. -/
theorem C4_crawlBatch_one_result_per_url_witness :
    (⟨[], [], ["a".data], [CrawlResult.mk true 200 "a".data], .drain⟩ :
      PState Str CrawlResult).out.length = (["a".data] : List Str).length := by
  apply C4_crawlBatch_one_result_per_url (fun _ => true)
    (fun _ => some (true, 200)) 1 ["a".data]
  · exact Relation.ReflTransGen.head
      (PStep.startWait "a".data [] [] [] [] (by decide))
      (Relation.ReflTransGen.head
        (PStep.raceSettle [] [] [] "a".data ["a".data] [] 1)
        (Relation.ReflTransGen.head
          (PStep.raceResume [] [] ["a".data]
            [CrawlResult.mk true 200 "a".data] 1 (by decide))
          (Relation.ReflTransGen.head
            (PStep.toDrain [] ["a".data] [CrawlResult.mk true 200 "a".data])
            Relation.ReflTransGen.refl)))
  · exact ⟨rfl, rfl⟩

/-- Claim C6. In `crawlBatch`, a robots-disallowed URL yields
`{ok: true, status: 999}` with no page fetch issued; a thrown page
fetch is caught per URL and yields `{ok: false, status: 0}`; and no
per-URL failure aborts the batch — from any reachable state, whatever
the per-URL verdicts and fetch outcomes, the run continues to a
completed state with one result per URL. -/
theorem C6_robots_skip_and_per_url_error_isolation :
    (∀ (fetchPage : Option (Bool × Nat)) (url : Str),
      crawlTaskRun false fetchPage url = (⟨true, 999, url⟩, false)) ∧
    (∀ url : Str, crawlTaskRun true none url = (⟨false, 0, url⟩, true)) ∧
    (∀ (robotsAllowed : Str → Bool) (fetchPage : Str → Option (Bool × Nat))
      (concurrency : Nat) (urls : List Str) (s : PState Str CrawlResult),
      crawlBatchReach robotsAllowed fetchPage concurrency urls s →
      ∃ t : PState Str CrawlResult,
        Relation.ReflTransGen (crawlStep robotsAllowed fetchPage concurrency)
          s t ∧ PDone t ∧ t.out.length = urls.length) := by
  refine ⟨fun fetchPage url => rfl, fun url => rfl, ?_⟩
  intro robotsAllowed fetchPage concurrency urls s hreach
  have hI := preach_inv hreach
  obtain ⟨t, htr, hd, hIt⟩ := pstep_progress (max 1 concurrency)
    (fun url => crawlTask (robotsAllowed url) (fetchPage url) url) urls
    (pMeasure s) s le_rfl hI
  exact ⟨t, htr, hd, (pdone_started hIt hd).2⟩

/-- Witness for C6: the disallowed-URL result, and a one-URL batch
whose page fetch throws still runs to completion with one result. -/
theorem C6_robots_skip_and_per_url_error_isolation_witness :
    crawlTaskRun false (some (true, 200)) "a".data =
      (⟨true, 999, "a".data⟩, false) ∧
    ∃ t : PState Str CrawlResult,
      Relation.ReflTransGen (crawlStep (fun _ => true) (fun _ => none) 1)
        (pInit ["a".data]) t ∧ PDone t ∧
        t.out.length = (["a".data] : List Str).length := by
  constructor
  · exact C6_robots_skip_and_per_url_error_isolation.1 (some (true, 200))
      "a".data
  · exact C6_robots_skip_and_per_url_error_isolation.2.2 (fun _ => true)
      (fun _ => none) 1 ["a".data] (pInit ["a".data])
      Relation.ReflTransGen.refl
